import Mathlib

/-!
Verification of the Base58 decoder utility (`src/base58_decoder.py`).

The script's own code is the `main` command surface: argument-count check,
a call to the library routine `base58.b58decode`, hex rendering of the
result, and error reporting.  The decode routine itself lives in a library
whose code is not part of the repository, so it is modelled here from the
specification's algorithm (spec §4.1): count leading zero-symbols, read the
whole string as a base-58 big-endian number, convert that number to a
minimal big-endian byte sequence, and prepend one zero byte per leading
zero-symbol.
-/

deriving instance DecidableEq for Except

namespace B58

/-- Modelled from the spec: the fixed 58-symbol alphabet
`123456789ABCDEFGHJKLMNPQRSTUVWXYZabcdefghijkmnopqrstuvwxyz` (spec §3). -/
def ALPHABET : List Char :=
  "123456789ABCDEFGHJKLMNPQRSTUVWXYZabcdefghijkmnopqrstuvwxyz".data

/-- A character is well formed when it belongs to the 58-symbol alphabet. -/
def isB58Char (c : Char) : Bool := ALPHABET.contains c

/-- The zero-based index of a character in the alphabet, its digit value. -/
def digitVal (c : Char) : Nat := ALPHABET.findIdx (fun a => a == c)

/-- Modelled from the spec: the only decode-time error kind is
`InvalidCharacter`, identifying the offending character (spec §4.1, §7). -/
inductive DecodeError where
  | invalidCharacter (c : Char) : DecodeError
deriving DecidableEq, Repr

/-- Number of leading occurrences of `z` at the front of a list. -/
def leadCount {α : Type} [DecidableEq α] (z : α) : List α → Nat
  | [] => 0
  | a :: t => if a = z then leadCount z t + 1 else 0

/-- The base-58 value of a string, most-significant digit first, computed by
repeated multiply-by-58-and-add (spec §4.1 step 2). -/
def strVal (s : List Char) : Nat :=
  s.foldl (fun acc c => acc * 58 + digitVal c) 0

/-- Little-endian base-`B` digit expansion, driven by explicit fuel so that
it is structurally recursive. -/
def natToLEFuel (B : Nat) : Nat → Nat → List Nat
  | 0, _ => []
  | _ + 1, 0 => []
  | fuel + 1, n + 1 => (n + 1) % B :: natToLEFuel B fuel ((n + 1) / B)

/-- Little-endian base-`B` digits of `n`, minimal (empty for `n = 0`). -/
def natToLE (B n : Nat) : List Nat := natToLEFuel B n n

/-- Modelled from the spec: the decode routine of the `base58` library,
which is not part of the repository (spec §4.1).  Fails with
`InvalidCharacter` on the first character outside the alphabet; otherwise
counts the leading zero-symbols `'1'`, computes the base-58 value `N` of
the whole string, converts `N` to a minimal big-endian byte sequence and
prepends one zero byte per leading zero-symbol. -/
def b58decode (s : List Char) : Except DecodeError (List Nat) :=
  match s.find? (fun c => !isB58Char c) with
  | some c => .error (.invalidCharacter c)
  | none =>
      .ok (List.replicate (leadCount '1' s) 0 ++ (natToLE 256 (strVal s)).reverse)

/-- The base-256 value of a big-endian byte sequence. -/
def bytesVal (bs : List Nat) : Nat :=
  bs.foldl (fun acc b => acc * 256 + b) 0

/-- Modelled from the spec: the inverse Base58-encode algorithm
(spec §4.1 result guarantee, §GLOSSARY): one `'1'` per leading zero byte,
then the minimal base-58 big-endian digits of the value, as alphabet
symbols. -/
def b58encode (bs : List Nat) : List Char :=
  List.replicate (leadCount 0 bs) '1' ++
    ((natToLE 58 (bytesVal bs)).reverse.map (fun d => ALPHABET.getD d '1'))

/-- Modelled from the spec: the reference decode algorithm exactly as the
claim states it: count the leading `'1'` characters as zeros, interpret the
whole string as a base-58 big-endian number `N` via each character's
zero-based alphabet index, convert `N` to a minimal big-endian byte
sequence, and prepend that many zero bytes. -/
def referenceDecode (s : List Char) : List Nat :=
  List.replicate (s.takeWhile (fun c => c == '1')).length 0 ++
    (Nat.digits 256 (Nat.ofDigits 58 ((s.map digitVal).reverse))).reverse

/-- The lowercase hexadecimal digit characters. -/
def HEXCHARS : List Char := "0123456789abcdef".data

/-- The lowercase hexadecimal digit for a value below 16. -/
def hexDigit (n : Nat) : Char := HEXCHARS.getD n '0'

/-- Lowercase hexadecimal rendering of a byte sequence, two digits per
byte, as produced by `bytes.hex()` on line 17 of the script. -/
def bytesHex : List Nat → List Char
  | [] => []
  | b :: t => hexDigit (b / 16) :: hexDigit (b % 16) :: bytesHex t

/-- Modelled from the spec: the human-readable message of a decode error,
identifying the offending character (spec §4.1 error conditions). -/
def errMessage : DecodeError → String
  | .invalidCharacter c => "InvalidCharacter: " ++ String.mk [c]

/-- The usage message printed on line 11 of the script, with the newline
appended by `print`. -/
def usageMessage : String :=
  "Usage: python3 base58_decoder.py <base58_string>\n"

/-- Observable outcome of one process run: what was written to standard
output and standard error, and the exit status. -/
structure ProcResult where
  stdout : String
  stderr : String
  exitCode : Nat
deriving DecidableEq, Repr

/-- The `main` entry point of `src/base58_decoder.py` (lines 9-21) over the
full argument vector `sys.argv` (program name first).  Wrong argument count
prints the usage message to standard error and exits 1; a successful decode
prints the lowercase hex of the bytes and a newline to standard output and
exits 0; a decode error prints a message to standard error and exits 1. -/
def main (argv : List String) : ProcResult :=
  if argv.length ≠ 2 then
    { stdout := "", stderr := usageMessage, exitCode := 1 }
  else
    match b58decode (List.getD argv 1 "").data with
    | .ok bs =>
        { stdout := (bytesHex bs).asString ++ "\n", stderr := "", exitCode := 0 }
    | .error e =>
        { stdout := "",
          stderr := "Error decoding base58: " ++ errMessage e ++ "\n",
          exitCode := 1 }

/-! ### Basic facts about the helper functions -/

theorem isB58Char_iff_mem {c : Char} : isB58Char c = true ↔ c ∈ ALPHABET := by
  simp [isB58Char]

theorem leadCount_eq_takeWhile {α : Type} [DecidableEq α] (z : α) (l : List α) :
    leadCount z l = (l.takeWhile (fun a => a == z)).length := by
  induction l with
  | nil => rfl
  | cons a t ih =>
    by_cases h : a = z
    · subst h
      simp [leadCount, List.takeWhile_cons, ih]
    · simp [leadCount, List.takeWhile_cons, h]

theorem leadCount_eq_zero {α : Type} [DecidableEq α] (z : α) (l : List α)
    (h : ∀ hl : l ≠ [], l.head hl ≠ z) : leadCount z l = 0 := by
  cases l with
  | nil => rfl
  | cons a t =>
    have ha : a ≠ z := by simpa using h (by simp)
    simp [leadCount, ha]

theorem foldl_mul_add {α : Type} (B : Nat) (f : α → Nat) :
    ∀ (l : List α) (acc : Nat),
      l.foldl (fun a c => a * B + f c) acc
        = acc * B ^ l.length + Nat.ofDigits B ((l.map f).reverse) := by
  intro l
  induction l with
  | nil => intro acc; simp
  | cons a t ih =>
    intro acc
    simp only [List.foldl_cons, List.map_cons, List.reverse_cons]
    rw [ih, Nat.ofDigits_append]
    simp only [Nat.ofDigits_singleton, List.length_reverse, List.length_map,
      List.length_cons]
    ring

theorem strVal_eq_ofDigits (s : List Char) :
    strVal s = Nat.ofDigits 58 ((s.map digitVal).reverse) := by
  have h := foldl_mul_add 58 digitVal s 0
  simpa [strVal] using h

theorem bytesVal_eq_ofDigits (bs : List Nat) :
    bytesVal bs = Nat.ofDigits 256 bs.reverse := by
  have h := foldl_mul_add 256 id bs 0
  simpa [bytesVal, List.map_id] using h

theorem natToLEFuel_eq_digits {B : Nat} (hB : 1 < B) :
    ∀ (fuel n : Nat), n ≤ fuel → natToLEFuel B fuel n = Nat.digits B n := by
  intro fuel
  induction fuel with
  | zero =>
    intro n hn
    have : n = 0 := Nat.le_zero.mp hn
    subst this
    rw [Nat.digits_zero]
    exact rfl
  | succ fuel ih =>
    intro n hn
    cases n with
    | zero =>
      rw [Nat.digits_zero]
      exact rfl
    | succ m =>
      have hdiv : (m + 1) / B < m + 1 := Nat.div_lt_self (Nat.succ_pos m) hB
      have hle : (m + 1) / B ≤ fuel := by omega
      rw [Nat.digits_def' hB (Nat.succ_pos m)]
      show (m + 1) % B :: natToLEFuel B fuel ((m + 1) / B)
        = (m + 1) % B :: Nat.digits B ((m + 1) / B)
      rw [ih _ hle]

theorem natToLE_eq_digits {B : Nat} (hB : 1 < B) (n : Nat) :
    natToLE B n = Nat.digits B n :=
  natToLEFuel_eq_digits hB n n (Nat.le_refl n)

theorem natToLEFuel_lt {B : Nat} (hB : 0 < B) :
    ∀ (fuel n : Nat), ∀ d ∈ natToLEFuel B fuel n, d < B := by
  intro fuel
  induction fuel with
  | zero => intro n d hd; cases hd
  | succ fuel ih =>
    intro n d hd
    cases n with
    | zero => cases hd
    | succ m =>
      rcases List.mem_cons.mp hd with h | h
      · subst h; exact Nat.mod_lt _ hB
      · exact ih _ _ h

theorem ofDigits_replicate_zero (B : Nat) : ∀ z, Nat.ofDigits B (List.replicate z 0) = 0 := by
  intro z
  induction z with
  | zero => rfl
  | succ z ih => simp [List.replicate_succ, Nat.ofDigits_cons, ih]

theorem ofDigits_append_replicate_zero (B : Nat) (l : List Nat) (z : Nat) :
    Nat.ofDigits B (l ++ List.replicate z 0) = Nat.ofDigits B l := by
  rw [Nat.ofDigits_append, ofDigits_replicate_zero]
  ring

/-! ### Finite facts about the alphabet, settled by evaluation -/

theorem digitVal_getD : ∀ d ∈ List.range 58, digitVal (ALPHABET.getD d '1') = d := by decide

theorem getD_mem_alpha : ∀ d ∈ List.range 58, isB58Char (ALPHABET.getD d '1') = true := by
  decide

theorem getD_ne_one : ∀ d ∈ List.range 58, d ≠ 0 → ALPHABET.getD d '1' ≠ '1' := by decide

theorem getD_digitVal : ∀ c ∈ ALPHABET, ALPHABET.getD (digitVal c) '1' = c := by decide

theorem digitVal_lt : ∀ c ∈ ALPHABET, digitVal c < 58 := by decide

theorem digitVal_ne_zero : ∀ c ∈ ALPHABET, c ≠ '1' → digitVal c ≠ 0 := by decide

theorem hexDigit_mem : ∀ n ∈ List.range 16, hexDigit n ∈ HEXCHARS := by decide

/-! ### Structure of `b58decode` -/

theorem b58decode_ok_of_valid {s : List Char} (hs : ∀ c ∈ s, isB58Char c = true) :
    b58decode s
      = .ok (List.replicate (leadCount '1' s) 0 ++ (natToLE 256 (strVal s)).reverse) := by
  have hf : s.find? (fun c => !isB58Char c) = none := by
    rw [List.find?_eq_none]
    intro x hx
    simp [hs x hx]
  unfold b58decode
  rw [hf]

theorem strVal_cons_one (s : List Char) : strVal ('1' :: s) = strVal s := rfl

theorem b58decode_cons_one (s : List Char) :
    b58decode ('1' :: s) = (b58decode s).map (fun bs => 0 :: bs) := by
  unfold b58decode
  rw [List.find?_cons_of_neg _ (by decide)]
  cases hf : s.find? (fun c => !isB58Char c) with
  | some c => rfl
  | none =>
    show Except.ok (List.replicate (leadCount '1' ('1' :: s)) 0
        ++ (natToLE 256 (strVal ('1' :: s))).reverse) = _
    have h1 : leadCount '1' ('1' :: s) = leadCount '1' s + 1 := by simp [leadCount]
    rw [h1, strVal_cons_one, List.replicate_succ, List.cons_append]
    rfl

theorem b58encode_cons_zero (t : List Nat) :
    b58encode (0 :: t) = '1' :: b58encode t := by
  unfold b58encode
  have h1 : leadCount 0 (0 :: t) = leadCount 0 t + 1 := by simp [leadCount]
  have h2 : bytesVal (0 :: t) = bytesVal t := rfl
  rw [h1, h2, List.replicate_succ, List.cons_append]

theorem b58decode_bytes_lt {s : List Char} {bs : List Nat}
    (h : b58decode s = .ok bs) : ∀ x ∈ bs, x < 256 := by
  unfold b58decode at h
  cases hf : s.find? (fun c => !isB58Char c) with
  | some c => rw [hf] at h; cases h
  | none =>
    rw [hf] at h
    cases h
    intro x hx
    rcases List.mem_append.mp hx with hx | hx
    · have := List.eq_of_mem_replicate hx
      omega
    · exact natToLEFuel_lt (by norm_num) _ _ _ (List.mem_reverse.mp hx)

/-! ### Round-trip cores: inputs with no leading zero-symbol / zero byte -/

theorem decEnc_core (bs : List Nat) (hb : ∀ x ∈ bs, x < 256)
    (hh : ∀ h : bs ≠ [], bs.head h ≠ 0) :
    b58decode (b58encode bs) = .ok bs := by
  cases bs with
  | nil => rfl
  | cons b t =>
    have hb0 : b ≠ 0 := by simpa using hh (by simp)
    have hN : Nat.digits 256 (bytesVal (b :: t)) = (b :: t).reverse := by
      rw [bytesVal_eq_ofDigits]
      refine Nat.digits_ofDigits 256 (by norm_num) _ ?_ ?_
      · intro l hl
        exact hb l (List.mem_reverse.mp hl)
      · intro hne
        rw [List.getLast_reverse]
        simpa using hb0
    have hNne : bytesVal (b :: t) ≠ 0 := by
      intro h0
      rw [h0, Nat.digits_zero] at hN
      exact (List.cons_ne_nil b t) (List.reverse_eq_nil_iff.mp hN.symm)
    have hlead : leadCount 0 (b :: t) = 0 := by simp [leadCount, hb0]
    have henc : b58encode (b :: t)
        = (Nat.digits 58 (bytesVal (b :: t))).reverse.map (fun d => ALPHABET.getD d '1') := by
      unfold b58encode
      rw [hlead, natToLE_eq_digits (by norm_num)]
      simp
    have hd58 : ∀ d ∈ Nat.digits 58 (bytesVal (b :: t)), d < 58 := by
      intro d hd
      exact Nat.digits_lt_base (by norm_num) hd
    have hvalid : ∀ c ∈ b58encode (b :: t), isB58Char c = true := by
      rw [henc]
      intro c hc
      rcases List.mem_map.mp hc with ⟨d, hd, rfl⟩
      exact getD_mem_alpha d (List.mem_range.mpr (hd58 d (List.mem_reverse.mp hd)))
    rw [b58decode_ok_of_valid hvalid]
    have hrevne : (Nat.digits 58 (bytesVal (b :: t))).reverse ≠ [] := by
      simpa using Nat.digits_ne_nil_iff_ne_zero.mpr hNne
    cases hrev : (Nat.digits 58 (bytesVal (b :: t))).reverse with
    | nil => exact absurd hrev hrevne
    | cons d rest =>
      have hdlast : Nat.digits 58 (bytesVal (b :: t)) ≠ [] :=
        Nat.digits_ne_nil_iff_ne_zero.mpr hNne
      have hdval : (Nat.digits 58 (bytesVal (b :: t))).getLast? = some d := by
        rw [← List.head?_reverse, hrev]
        rfl
      have hdgl : (Nat.digits 58 (bytesVal (b :: t))).getLast hdlast = d :=
        (List.getLast_eq_iff_getLast_eq_some hdlast).mpr hdval
      have hdne0 : d ≠ 0 := by
        rw [← hdgl]
        exact Nat.getLast_digit_ne_zero 58 hNne
      have hdmem : d ∈ Nat.digits 58 (bytesVal (b :: t)) := by
        have : d ∈ (Nat.digits 58 (bytesVal (b :: t))).reverse := by
          rw [hrev]; exact List.mem_cons_self d rest
        exact List.mem_reverse.mp this
      have hchar : ALPHABET.getD d '1' ≠ '1' :=
        getD_ne_one d (List.mem_range.mpr (hd58 d hdmem)) hdne0
      have hlead1 : leadCount '1' (b58encode (b :: t)) = 0 := by
        rw [henc, hrev, List.map_cons]
        simp only [leadCount, if_neg hchar]
      have hval : strVal (b58encode (b :: t)) = bytesVal (b :: t) := by
        rw [henc, strVal_eq_ofDigits, List.map_map]
        have hmapid : (Nat.digits 58 (bytesVal (b :: t))).reverse.map
            (digitVal ∘ fun d => ALPHABET.getD d '1')
            = (Nat.digits 58 (bytesVal (b :: t))).reverse := by
          rw [List.map_congr_left (g := id), List.map_id]
          intro a ha
          exact digitVal_getD a (List.mem_range.mpr (hd58 a (List.mem_reverse.mp ha)))
        rw [hmapid, List.reverse_reverse, Nat.ofDigits_digits]
      rw [hlead1, hval, natToLE_eq_digits (by norm_num), hN]
      simp

theorem encDec_core (s : List Char) (hs : ∀ c ∈ s, isB58Char c = true)
    (hh : ∀ h : s ≠ [], s.head h ≠ '1') :
    ∃ bs, b58decode s = .ok bs ∧ leadCount 0 bs = 0 ∧ b58encode bs = s := by
  cases s with
  | nil => exact ⟨[], rfl, rfl, rfl⟩
  | cons c r =>
    have hc : c ∈ ALPHABET := isB58Char_iff_mem.mp (hs c (List.mem_cons_self c r))
    have hc1 : c ≠ '1' := by simpa using hh (by simp)
    have hvlt : ∀ d ∈ ((c :: r).map digitVal).reverse, d < 58 := by
      intro d hd
      rcases List.mem_map.mp (List.mem_reverse.mp hd) with ⟨a, ha, rfl⟩
      exact digitVal_lt a (isB58Char_iff_mem.mp (hs a ha))
    have hN : Nat.digits 58 (strVal (c :: r)) = ((c :: r).map digitVal).reverse := by
      rw [strVal_eq_ofDigits]
      refine Nat.digits_ofDigits 58 (by norm_num) _ hvlt ?_
      intro hne
      rw [List.getLast_reverse]
      simpa using digitVal_ne_zero c hc hc1
    have hNne : strVal (c :: r) ≠ 0 := by
      intro h0
      rw [h0, Nat.digits_zero] at hN
      have : (c :: r).map digitVal = [] := List.reverse_eq_nil_iff.mp hN.symm
      simp at this
    have hlead : leadCount '1' (c :: r) = 0 := by simp [leadCount, hc1]
    rw [b58decode_ok_of_valid hs, hlead]
    refine ⟨(Nat.digits 256 (strVal (c :: r))).reverse, ?_, ?_, ?_⟩
    · rw [natToLE_eq_digits (by norm_num)]
      simp
    · refine leadCount_eq_zero 0 _ ?_
      intro hbne
      rw [List.head_reverse]
      exact Nat.getLast_digit_ne_zero 256 hNne
    · unfold b58encode
      have hlz : leadCount 0 (Nat.digits 256 (strVal (c :: r))).reverse = 0 := by
        refine leadCount_eq_zero 0 _ ?_
        intro hbne
        rw [List.head_reverse]
        exact Nat.getLast_digit_ne_zero 256 hNne
      have hbv : bytesVal (Nat.digits 256 (strVal (c :: r))).reverse = strVal (c :: r) := by
        rw [bytesVal_eq_ofDigits, List.reverse_reverse, Nat.ofDigits_digits]
      rw [hlz, hbv, natToLE_eq_digits (by norm_num), hN, List.reverse_reverse,
        List.map_map]
      have hmapid : (c :: r).map ((fun d => ALPHABET.getD d '1') ∘ digitVal) = c :: r := by
        rw [List.map_congr_left (g := id), List.map_id]
        intro a ha
        exact getD_digitVal a (isB58Char_iff_mem.mp (hs a ha))
      rw [hmapid]
      simp

/-! ### Round trips with leading zero-symbols / zero bytes -/

theorem decode_encode (bs : List Nat) (hb : ∀ x ∈ bs, x < 256) :
    b58decode (b58encode bs) = .ok bs := by
  induction bs with
  | nil => rfl
  | cons b t ih =>
    by_cases hb0 : b = 0
    · subst hb0
      rw [b58encode_cons_zero, b58decode_cons_one,
        ih (fun x hx => hb x (List.mem_cons_of_mem _ hx))]
      rfl
    · exact decEnc_core (b :: t) hb (by intro h; simpa using hb0)

theorem encode_decode (s : List Char) (hs : ∀ c ∈ s, isB58Char c = true) :
    ∃ bs, b58decode s = .ok bs ∧ b58encode bs = s := by
  induction s with
  | nil => exact ⟨[], rfl, rfl⟩
  | cons c r ih =>
    by_cases hc1 : c = '1'
    · subst hc1
      obtain ⟨bs, hdec, henc⟩ := ih (fun a ha => hs a (List.mem_cons_of_mem _ ha))
      refine ⟨0 :: bs, ?_, ?_⟩
      · rw [b58decode_cons_one, hdec]
        rfl
      · rw [b58encode_cons_zero, henc]
    · obtain ⟨bs, hdec, _, henc⟩ :=
        encDec_core (c :: r) hs (by intro h; simpa using hc1)
      exact ⟨bs, hdec, henc⟩

/-! ### Hex output and whitespace helpers -/

theorem bytesHex_mem {bs : List Nat} (hb : ∀ x ∈ bs, x < 256) :
    ∀ c ∈ bytesHex bs, c ∈ HEXCHARS := by
  induction bs with
  | nil => intro c hc; cases hc
  | cons b t ih =>
    intro c hc
    have hblt : b < 256 := hb b (List.mem_cons_self b t)
    rcases List.mem_cons.mp hc with h | hc2
    · subst h
      exact hexDigit_mem _ (List.mem_range.mpr (by omega))
    rcases List.mem_cons.mp hc2 with h | h
    · subst h
      exact hexDigit_mem _ (List.mem_range.mpr (Nat.mod_lt _ (by norm_num)))
    · exact ih (fun x hx => hb x (List.mem_cons_of_mem _ hx)) c h

theorem whitespace_not_b58 (c : Char) (h : c.isWhitespace = true) :
    isB58Char c = false := by
  simp [Char.isWhitespace] at h
  rcases h with ((h | h) | h) | h <;> subst h <;> rfl

/-! ### The claims -/

/-- C1: for every input string over the 58-symbol alphabet, `b58decode`
returns exactly the byte sequence of the reference algorithm: the leading
`'1'` characters become that many zero bytes, prepended to the minimal
big-endian byte sequence of the base-58 big-endian value of the whole
string (empty when the value is zero). -/
theorem decode_matches_reference (s : List Char)
    (hs : ∀ c ∈ s, isB58Char c = true) :
    b58decode s = .ok (referenceDecode s) := by
  rw [b58decode_ok_of_valid hs]
  unfold referenceDecode
  rw [leadCount_eq_takeWhile, natToLE_eq_digits (by norm_num), strVal_eq_ofDigits]

theorem decode_matches_reference_witness :
    b58decode "abc".data = .ok (referenceDecode "abc".data) :=
  decode_matches_reference "abc".data (by decide)

/-- C2: `b58decode` fails, always with an `InvalidCharacter` error carrying
a character of the input that lies outside the alphabet, exactly when some
input character is outside the 58-symbol alphabet; every string over the
alphabet (the empty string included) decodes successfully. -/
theorem decode_error_iff_invalid (s : List Char) :
    ((∃ bs, b58decode s = .ok bs) ↔ ∀ c ∈ s, isB58Char c = true) ∧
    (∀ e, b58decode s = .error e →
      ∃ c, e = .invalidCharacter c ∧ c ∈ s ∧ isB58Char c = false) := by
  constructor
  · constructor
    · rintro ⟨bs, hbs⟩ c hc
      by_contra hbad
      have hsome : (s.find? (fun c => !isB58Char c)).isSome := by
        rw [List.find?_isSome]
        refine ⟨c, hc, ?_⟩
        simp [Bool.not_eq_true] at hbad ⊢
        exact hbad
      obtain ⟨a, ha⟩ := Option.isSome_iff_exists.mp hsome
      unfold b58decode at hbs
      rw [ha] at hbs
      cases hbs
    · intro hs
      exact ⟨_, b58decode_ok_of_valid hs⟩
  · intro e he
    unfold b58decode at he
    cases hf : s.find? (fun c => !isB58Char c) with
    | none =>
      rw [hf] at he
      cases he
    | some c =>
      rw [hf] at he
      cases he
      refine ⟨c, rfl, List.mem_of_find?_eq_some hf, ?_⟩
      have hp := List.find?_some hf
      simpa using hp

theorem decode_error_iff_invalid_witness :
    ((∃ bs, b58decode "0".data = .ok bs) ↔ ∀ c ∈ "0".data, isB58Char c = true) ∧
    (∀ e, b58decode "0".data = .error e →
      ∃ c, e = .invalidCharacter c ∧ c ∈ "0".data ∧ isB58Char c = false) :=
  decode_error_iff_invalid "0".data

/-- C3: decode and Base58-encode are mutually inverse: decoding the
encoding of any byte sequence gives the bytes back, and every string over
the alphabet decodes to bytes whose encoding is the original string. -/
theorem roundtrip (bs : List Nat) (s : List Char)
    (hb : ∀ x ∈ bs, x < 256) (hs : ∀ c ∈ s, isB58Char c = true) :
    b58decode (b58encode bs) = .ok bs ∧
    ∃ ds, b58decode s = .ok ds ∧ b58encode ds = s :=
  ⟨decode_encode bs hb, encode_decode s hs⟩

theorem roundtrip_witness :
    b58decode (b58encode [0, 255, 7]) = .ok [0, 255, 7] ∧
    ∃ ds, b58decode "1z".data = .ok ds ∧ b58encode ds = "1z".data :=
  roundtrip [0, 255, 7] "1z".data (by decide) (by decide)

/-- C4: prepending two zero-symbols `"11"` to a valid string not starting
with `'1'` adds exactly two leading zero bytes to the decoded output and
leaves the remaining bytes unchanged. -/
theorem decode_leading_zeros (s : List Char)
    (hs : ∀ c ∈ s, isB58Char c = true)
    (hh : ∀ h : s ≠ [], s.head h ≠ '1') :
    ∃ bs cs, b58decode s = .ok bs ∧ b58decode ('1' :: '1' :: s) = .ok cs ∧
      leadCount 0 cs = leadCount 0 bs + 2 ∧
      cs.drop (leadCount 0 cs) = bs.drop (leadCount 0 bs) := by
  obtain ⟨bs, hdec, hl0, _⟩ := encDec_core s hs hh
  have hl2 : leadCount 0 (0 :: 0 :: bs) = leadCount 0 bs + 2 := by
    simp [leadCount]
  refine ⟨bs, 0 :: 0 :: bs, hdec, ?_, hl2, ?_⟩
  · rw [b58decode_cons_one, b58decode_cons_one, hdec]
    rfl
  · rw [hl2, hl0]
    rfl

theorem decode_leading_zeros_witness :
    ∃ bs cs, b58decode "z".data = .ok bs ∧
      b58decode ('1' :: '1' :: "z".data) = .ok cs ∧
      leadCount 0 cs = leadCount 0 bs + 2 ∧
      cs.drop (leadCount 0 cs) = bs.drop (leadCount 0 bs) :=
  decode_leading_zeros "z".data (by decide)
    (by intro h; show ('z' : Char) ≠ '1'; decide)

/-- C5: decoding `"2NEpo7TZRRrLZSi2U"` yields exactly the UTF-8 bytes of
`"Hello World!"`, and the program invoked with that argument prints the
lowercase hex of those bytes followed by a newline and exits with 0. -/
theorem hello_world_vector (prog : String) :
    b58decode "2NEpo7TZRRrLZSi2U".data
      = .ok ("Hello World!".data.map Char.toNat) ∧
    main [prog, "2NEpo7TZRRrLZSi2U"]
      = { stdout := "48656c6c6f20576f726c6421\n", stderr := "", exitCode := 0 } := by
  constructor
  · decide
  · unfold main
    rw [if_neg (by simp)]
    rfl

theorem hello_world_vector_witness :
    b58decode "2NEpo7TZRRrLZSi2U".data
      = .ok ("Hello World!".data.map Char.toNat) ∧
    main ["prog", "2NEpo7TZRRrLZSi2U"]
      = { stdout := "48656c6c6f20576f726c6421\n", stderr := "", exitCode := 0 } :=
  hello_world_vector "prog"

/-- C6: decoding the empty string succeeds with the empty byte sequence,
and the program invoked with an empty argument prints an empty hex string
(just the newline) to standard output and exits with 0. -/
theorem empty_string_vector (prog : String) :
    b58decode "".data = .ok [] ∧
    main [prog, ""] = { stdout := "\n", stderr := "", exitCode := 0 } := by
  constructor
  · rfl
  · unfold main
    rw [if_neg (by simp)]
    rfl

theorem empty_string_vector_witness :
    b58decode "".data = .ok [] ∧
    main ["prog", ""] = { stdout := "\n", stderr := "", exitCode := 0 } :=
  empty_string_vector "prog"

/-- C7: whenever the decode succeeds, the program writes the lowercase
hexadecimal encoding of the decoded bytes and a newline to standard
output, writes nothing to standard error, and exits with status 0; every
character printed before the newline is a lowercase hex digit. -/
theorem main_success_output (prog a : String) (bs : List Nat)
    (h : b58decode a.data = .ok bs) :
    main [prog, a]
      = { stdout := (bytesHex bs).asString ++ "\n", stderr := "", exitCode := 0 } ∧
    ∀ c ∈ bytesHex bs, c ∈ HEXCHARS := by
  constructor
  · unfold main
    rw [if_neg (by simp)]
    have hg : (List.getD [prog, a] 1 "").data = a.data := rfl
    rw [hg, h]
  · exact bytesHex_mem (b58decode_bytes_lt h)

theorem main_success_output_witness :
    main ["p", "1"]
      = { stdout := (bytesHex [0]).asString ++ "\n", stderr := "", exitCode := 0 } ∧
    ∀ c ∈ bytesHex [0], c ∈ HEXCHARS :=
  main_success_output "p" "1" [0] rfl

/-- C8: invoked with an argument count other than exactly one, the program
writes the usage message to standard error, writes nothing to standard
output, and exits with status 1. -/
theorem main_usage_error (prog : String) (args : List String)
    (h : args.length ≠ 1) :
    main (prog :: args) = { stdout := "", stderr := usageMessage, exitCode := 1 } := by
  unfold main
  rw [if_pos (by simp only [List.length_cons]; omega)]

theorem main_usage_error_witness :
    main ("prog" :: []) = { stdout := "", stderr := usageMessage, exitCode := 1 } :=
  main_usage_error "prog" [] (by decide)

/-- C9: every run of the program either succeeds with exit status 0 and an
empty standard error, or fails with exit status 1, an empty standard
output (no partial result) and a non-empty human-readable message on
standard error. -/
theorem main_failure_modes (prog : String) (args : List String) :
    ((main (prog :: args)).exitCode = 0 ∧ (main (prog :: args)).stderr = "") ∨
    ((main (prog :: args)).exitCode = 1 ∧ (main (prog :: args)).stdout = "" ∧
      (main (prog :: args)).stderr ≠ "") := by
  by_cases h : (prog :: args).length ≠ 2
  · right
    unfold main
    rw [if_pos h]
    exact ⟨rfl, rfl, by decide⟩
  · cases hd : b58decode (List.getD (prog :: args) 1 "").data with
    | ok bs =>
      left
      unfold main
      rw [if_neg h, hd]
      exact ⟨rfl, rfl⟩
    | error e =>
      right
      unfold main
      rw [if_neg h, hd]
      refine ⟨rfl, rfl, ?_⟩
      cases e with
      | invalidCharacter c =>
        intro hcontra
        have hdata := congrArg String.data hcontra
        simp [errMessage, String.data_append] at hdata

theorem main_failure_modes_witness :
    ((main ("prog" :: ["0"])).exitCode = 0 ∧ (main ("prog" :: ["0"])).stderr = "") ∨
    ((main ("prog" :: ["0"])).exitCode = 1 ∧ (main ("prog" :: ["0"])).stdout = "" ∧
      (main ("prog" :: ["0"])).stderr ≠ "") :=
  main_failure_modes "prog" ["0"]

/-- C10 counterexample: appending whitespace is not transparent to decode;
with `s = ""` and `w = " "` the decode of `s ++ w` is an error while the
decode of `s` succeeds, refuting the claimed identity. -/
theorem trailing_whitespace_cex :
    ¬ (∀ (s w : List Char), (∀ c ∈ w, c.isWhitespace = true) →
        b58decode (s ++ w) = b58decode s) := by
  intro hclaim
  have h := hclaim [] [' '] (by decide)
  have hne : b58decode ([] ++ [' ']) ≠ b58decode [] := by decide
  exact hne h

/-- C10 (amended): trailing whitespace is not removed before decoding:
whitespace characters lie outside the 58-symbol alphabet, so for every
string `s` and non-empty whitespace-only `w`, decoding `s ++ w` fails with
an `InvalidCharacter` error (carrying a character outside the alphabet)
instead of equalling the decode of `s`. -/
theorem whitespace_rejected (s w : List Char) (hw : w ≠ [])
    (hws : ∀ c ∈ w, c.isWhitespace = true) :
    ∃ c, isB58Char c = false ∧
      b58decode (s ++ w) = .error (.invalidCharacter c) := by
  have hex : ∃ x, x ∈ s ++ w ∧ (!isB58Char x) = true := by
    cases w with
    | nil => exact absurd rfl hw
    | cons a t =>
      refine ⟨a, List.mem_append.mpr (Or.inr (List.mem_cons_self a t)), ?_⟩
      simp [whitespace_not_b58 a (hws a (List.mem_cons_self a t))]
  have hsome : ((s ++ w).find? (fun c => !isB58Char c)).isSome := by
    rw [List.find?_isSome]
    exact hex
  obtain ⟨c, hc⟩ := Option.isSome_iff_exists.mp hsome
  have hp := List.find?_some hc
  refine ⟨c, by simpa using hp, ?_⟩
  unfold b58decode
  rw [hc]

theorem whitespace_rejected_witness :
    ∃ c, isB58Char c = false ∧
      b58decode ("A".data ++ " ".data) = .error (.invalidCharacter c) :=
  whitespace_rejected "A".data " ".data (by decide) (by decide)

end B58
